import Mathlib

/-!
Verification of the `heapcy` bounded top-K heap and offset line resolver.

The compiled core is modelled from the specification (each such definition
says so in its doc comment); the demo ingestion loop is modelled from
`src/test.py`.
-/

namespace Heapcy

/-- An entry stored in the heap: a score, an opaque payload (byte offset),
and an insertion sequence number used for the FIFO tie-break. -/
structure Entry where
  score : ℚ
  payload : ℤ
  seq : ℕ
deriving DecidableEq, Repr

/-- Default entry, used only as the default of out-of-range list reads. -/
def dEntry : Entry := ⟨0, 0, 0⟩

instance : Inhabited Entry := ⟨dEntry⟩

/-- Heap ordering key comparison (non-strict): by score, ties broken so
that the earlier-inserted entry (smaller `seq`) is the smaller one. -/
def keyLe (a b : Entry) : Prop :=
  a.score < b.score ∨ (a.score = b.score ∧ a.seq ≤ b.seq)

/-- Strict version of `keyLe`. -/
def keyLt (a b : Entry) : Prop :=
  a.score < b.score ∨ (a.score = b.score ∧ a.seq < b.seq)

instance (a b : Entry) : Decidable (keyLe a b) := by unfold keyLe; infer_instance

instance (a b : Entry) : Decidable (keyLt a b) := by unfold keyLt; infer_instance

theorem keyLe_refl (a : Entry) : keyLe a a := Or.inr ⟨rfl, le_refl _⟩

theorem keyLe_trans {a b c : Entry} (h1 : keyLe a b) (h2 : keyLe b c) : keyLe a c := by
  rcases h1 with h1 | ⟨h1, h1'⟩ <;> rcases h2 with h2 | ⟨h2, h2'⟩
  · exact Or.inl (lt_trans h1 h2)
  · exact Or.inl (h2 ▸ h1)
  · exact Or.inl (h1 ▸ h2)
  · exact Or.inr ⟨h1.trans h2, h1'.trans h2'⟩

theorem keyLe_total (a b : Entry) : keyLe a b ∨ keyLe b a := by
  rcases lt_trichotomy a.score b.score with h | h | h
  · exact Or.inl (Or.inl h)
  · rcases Nat.le_total a.seq b.seq with h' | h'
    · exact Or.inl (Or.inr ⟨h, h'⟩)
    · exact Or.inr (Or.inr ⟨h.symm, h'⟩)
  · exact Or.inr (Or.inl h)

theorem keyLt_of_not_keyLe {a b : Entry} (h : ¬ keyLe a b) : keyLt b a := by
  unfold keyLe at h
  push_neg at h
  obtain ⟨h1, h2⟩ := h
  rcases lt_or_eq_of_le h1 with h3 | h3
  · exact Or.inl h3
  · exact Or.inr ⟨h3, h2 h3.symm⟩

theorem keyLe_of_keyLt {a b : Entry} (h : keyLt a b) : keyLe a b := by
  rcases h with h | ⟨h, h'⟩
  · exact Or.inl h
  · exact Or.inr ⟨h, Nat.le_of_lt h'⟩

theorem keyLe_score {a b : Entry} (h : keyLe a b) : a.score ≤ b.score := by
  rcases h with h | ⟨h, _⟩
  · exact le_of_lt h
  · exact le_of_eq h

/-- Index of the parent of array slot `i` in the binary heap layout. -/
def parentIdx (i : ℕ) : ℕ := (i - 1) / 2

theorem parentIdx_lt {i : ℕ} (h : 0 < i) : parentIdx i < i := by
  unfold parentIdx; omega

theorem parentIdx_cases {i j : ℕ} (hj : 0 < j) (h : parentIdx j = i) :
    j = 2 * i + 1 ∨ j = 2 * i + 2 := by
  unfold parentIdx at h; omega

theorem parentIdx_left (i : ℕ) : parentIdx (2 * i + 1) = i := by
  unfold parentIdx; omega

theorem parentIdx_right (i : ℕ) : parentIdx (2 * i + 2) = i := by
  unfold parentIdx; omega

/-- Swap the entries at slots `i` and `j`. -/
def swapL (l : List Entry) (i j : ℕ) : List Entry :=
  (l.set i (l.getD j dEntry)).set j (l.getD i dEntry)

theorem length_swapL (l : List Entry) (i j : ℕ) :
    (swapL l i j).length = l.length := by
  unfold swapL; simp

theorem getD_set_self (l : List Entry) (i : ℕ) (a : Entry) (h : i < l.length) :
    (l.set i a).getD i dEntry = a := by
  simp [List.getD_eq_getElem?_getD, List.getElem?_set_eq_of_lt a h]

theorem getD_set_ne (l : List Entry) {i j : ℕ} (a : Entry) (h : i ≠ j) :
    (l.set i a).getD j dEntry = l.getD j dEntry := by
  simp [List.getD_eq_getElem?_getD, List.getElem?_set_ne h]

theorem getD_swapL_fst (l : List Entry) {i j : ℕ} (hi : i < l.length) (hj : j < l.length) :
    (swapL l i j).getD i dEntry = l.getD j dEntry := by
  unfold swapL
  by_cases h : j = i
  · subst h
    rw [getD_set_self _ _ _ (by simpa using hi)]
  · rw [getD_set_ne _ _ h, getD_set_self _ _ _ hi]

theorem getD_swapL_snd (l : List Entry) {i j : ℕ} (hj : j < l.length) :
    (swapL l i j).getD j dEntry = l.getD i dEntry := by
  unfold swapL
  rw [getD_set_self _ _ _ (by simpa using hj)]

theorem getD_swapL_other (l : List Entry) {i j k : ℕ} (h1 : i ≠ k) (h2 : j ≠ k) :
    (swapL l i j).getD k dEntry = l.getD k dEntry := by
  unfold swapL
  rw [getD_set_ne _ _ h2, getD_set_ne _ _ h1]

theorem count_set (a x : Entry) :
    ∀ (l : List Entry) (i : ℕ), i < l.length →
      (l.set i a).count x + (if l.getD i dEntry = x then 1 else 0)
        = l.count x + (if a = x then 1 else 0)
  | [], i, h => by simp at h
  | y :: t, 0, _ => by
      simp only [List.set_cons_zero, List.getD_cons_zero, List.count_cons, beq_iff_eq]
      omega
  | y :: t, i + 1, h => by
      have ih := count_set a x t i (by simpa using h)
      simp only [List.set_cons_succ, List.getD_cons_succ, List.count_cons, beq_iff_eq]
      omega

theorem swapL_perm (l : List Entry) {i j : ℕ} (hi : i < l.length) (hj : j < l.length) :
    (swapL l i j).Perm l := by
  rw [List.perm_iff_count]
  intro x
  have h1 := count_set (l.getD i dEntry) x (l.set i (l.getD j dEntry)) j
    (by simpa using hj)
  have h2 := count_set (l.getD j dEntry) x l i hi
  by_cases hij : i = j
  · subst hij
    rw [getD_set_self _ _ _ hi] at h1
    unfold swapL
    omega
  · rw [getD_set_ne _ _ hij] at h1
    unfold swapL
    omega

/-- One step description: sift the entry at slot `i` up toward the root,
swapping with its parent while it is strictly smaller; `f` is recursion fuel. -/
def siftUpF : ℕ → List Entry → ℕ → List Entry
  | 0, l, _ => l
  | f + 1, l, i =>
    if i = 0 then l
    else if keyLt (l.getD i dEntry) (l.getD (parentIdx i) dEntry) then
      siftUpF f (swapL l (parentIdx i) i) (parentIdx i)
    else l

/-- The index of the smaller of the (present) children of slot `i`;
meaningful only when `2 * i + 1 < l.length`. -/
def minChild (l : List Entry) (i : ℕ) : ℕ :=
  if 2 * i + 2 < l.length then
    (if keyLt (l.getD (2 * i + 2) dEntry) (l.getD (2 * i + 1) dEntry)
     then 2 * i + 2 else 2 * i + 1)
  else 2 * i + 1

theorem minChild_lt (l : List Entry) (i : ℕ) (h : 2 * i + 1 < l.length) :
    minChild l i < l.length := by
  unfold minChild
  split
  · split
    · assumption
    · exact h
  · exact h

theorem minChild_gt (l : List Entry) (i : ℕ) : i < minChild l i := by
  unfold minChild
  split
  · split <;> omega
  · omega

theorem parentIdx_minChild (l : List Entry) (i : ℕ) : parentIdx (minChild l i) = i := by
  unfold minChild
  split
  · split
    · exact parentIdx_right i
    · exact parentIdx_left i
  · exact parentIdx_left i

theorem keyLe_of_not_keyLt {a b : Entry} (h : ¬ keyLt a b) : keyLe b a := by
  unfold keyLt at h
  push_neg at h
  obtain ⟨h1, h2⟩ := h
  rcases lt_or_eq_of_le h1 with h3 | h3
  · exact Or.inl h3
  · exact Or.inr ⟨h3, h2 h3.symm⟩

/-- `minChild` is at most either child that is present. -/
theorem minChild_le (l : List Entry) (i j : ℕ) (hj : j < l.length)
    (hcase : j = 2 * i + 1 ∨ j = 2 * i + 2) :
    keyLe (l.getD (minChild l i) dEntry) (l.getD j dEntry) := by
  unfold minChild
  rcases hcase with rfl | rfl
  · split
    · split
      · rename_i hlt
        exact keyLe_of_keyLt hlt
      · exact keyLe_refl _
    · exact keyLe_refl _
  · split
    · split
      · exact keyLe_refl _
      · rename_i hnlt
        exact keyLe_of_not_keyLt hnlt
    · rename_i hc
      exact absurd hj hc

/-- Sift the entry at slot `i` down toward the leaves, swapping with its
smaller child while that child is strictly smaller; `f` is recursion fuel. -/
def siftDownF : ℕ → List Entry → ℕ → List Entry
  | 0, l, _ => l
  | f + 1, l, i =>
    if 2 * i + 1 < l.length then
      if keyLt (l.getD (minChild l i) dEntry) (l.getD i dEntry) then
        siftDownF f (swapL l i (minChild l i)) (minChild l i)
      else l
    else l

theorem length_siftUpF (f : ℕ) :
    ∀ (l : List Entry) (i : ℕ), (siftUpF f l i).length = l.length := by
  induction f with
  | zero => intro l i; rfl
  | succ f ih =>
      intro l i
      unfold siftUpF
      split
      · rfl
      · split
        · rw [ih, length_swapL]
        · rfl

theorem length_siftDownF (f : ℕ) :
    ∀ (l : List Entry) (i : ℕ), (siftDownF f l i).length = l.length := by
  induction f with
  | zero => intro l i; rfl
  | succ f ih =>
      intro l i
      unfold siftDownF
      split
      · split
        · rw [ih, length_swapL]
        · rfl
      · rfl

theorem siftUpF_perm (f : ℕ) :
    ∀ (l : List Entry) (i : ℕ), i < l.length → (siftUpF f l i).Perm l := by
  induction f with
  | zero => intro l i _; exact List.Perm.refl l
  | succ f ih =>
      intro l i hi
      unfold siftUpF
      split
      · exact List.Perm.refl l
      · split
        · rename_i h0 _
          have hp : parentIdx i < l.length := lt_trans (parentIdx_lt (Nat.pos_of_ne_zero h0)) hi
          exact ((ih _ _ (by rw [length_swapL]; exact hp)).trans
            (swapL_perm l hp hi))
        · exact List.Perm.refl l

theorem siftDownF_perm (f : ℕ) :
    ∀ (l : List Entry) (i : ℕ), i < l.length → (siftDownF f l i).Perm l := by
  induction f with
  | zero => intro l i _; exact List.Perm.refl l
  | succ f ih =>
      intro l i hi
      unfold siftDownF
      split
      · split
        · rename_i hc _
          have hmlt : minChild l i < l.length := minChild_lt l i hc
          exact ((ih _ _ (by rw [length_swapL]; exact hmlt)).trans
            (swapL_perm l hi hmlt))
        · exact List.Perm.refl l
      · exact List.Perm.refl l

/-- The min-heap ordering invariant over keys (score with FIFO tie-break):
every non-root slot is at least its parent. -/
def KOrd (l : List Entry) : Prop :=
  ∀ i, i < l.length → 0 < i → keyLe (l.getD (parentIdx i) dEntry) (l.getD i dEntry)

instance (l : List Entry) : Decidable (KOrd l) := by
  unfold KOrd; infer_instance

/-- Sifting up restores the heap invariant, provided all parent-child pairs
except the one at `i` are ordered and the children of `i` dominate `i`'s
parent. -/
theorem siftUpF_KOrd (f : ℕ) :
    ∀ (l : List Entry) (i : ℕ), i < f → i < l.length →
    (∀ j, j < l.length → 0 < j → j ≠ i →
      keyLe (l.getD (parentIdx j) dEntry) (l.getD j dEntry)) →
    (∀ j, j < l.length → parentIdx j = i → 0 < i →
      keyLe (l.getD (parentIdx i) dEntry) (l.getD j dEntry)) →
    KOrd (siftUpF f l i) := by
  induction f with
  | zero => intro l i hf; exact absurd hf (Nat.not_lt_zero i)
  | succ f ih =>
      intro l i hf hil hA hB
      unfold siftUpF
      split
      · rename_i hi0
        subst hi0
        intro j hj hj0
        exact hA j hj hj0 (Nat.pos_iff_ne_zero.mp hj0)
      · rename_i hi0
        have hi0' : 0 < i := Nat.pos_of_ne_zero hi0
        have hplt : parentIdx i < i := parentIdx_lt hi0'
        have hp : parentIdx i < l.length := lt_trans hplt hil
        have hpi : parentIdx i ≠ i := Nat.ne_of_lt hplt
        split
        · rename_i hlt
          -- swap `i` with its parent and continue at the parent
          apply ih (swapL l (parentIdx i) i) (parentIdx i)
            (by omega) (by rw [length_swapL]; exact hp)
          · -- edges away from the parent position still ordered
            intro j hj hj0 hjp
            rw [length_swapL] at hj
            by_cases hji : j = i
            · rw [hji, getD_swapL_fst l hp hil, getD_swapL_snd l hil]
              exact keyLe_of_keyLt hlt
            · have hgj : (swapL l (parentIdx i) i).getD j dEntry = l.getD j dEntry :=
                getD_swapL_other l (fun h => hjp h.symm) (fun h => hji h.symm)
              rw [hgj]
              by_cases hpj : parentIdx j = i
              · rw [hpj, getD_swapL_snd l hil]
                exact hB j hj hpj hi0'
              · by_cases hpj2 : parentIdx j = parentIdx i
                · rw [hpj2, getD_swapL_fst l hp hil]
                  exact keyLe_trans (keyLe_of_keyLt hlt) (hpj2 ▸ hA j hj hj0 hji)
                · rw [getD_swapL_other l (fun h => hpj2 h.symm) (fun h => hpj h.symm)]
                  exact hA j hj hj0 hji
          · -- children of the parent dominate the grandparent
            intro j hj hpj hp0
            rw [length_swapL] at hj
            have hgp : parentIdx (parentIdx i) < parentIdx i := parentIdx_lt hp0
            have h1 : (swapL l (parentIdx i) i).getD (parentIdx (parentIdx i)) dEntry
                = l.getD (parentIdx (parentIdx i)) dEntry :=
              getD_swapL_other l (by omega) (by omega)
            rw [h1]
            by_cases hji : j = i
            · rw [hji, getD_swapL_snd l hil]
              exact hA (parentIdx i) hp hp0 hpi
            · have hjne_p : j ≠ parentIdx i := fun h =>
                absurd (h ▸ hpj : parentIdx (parentIdx i) = parentIdx i)
                  (Nat.ne_of_lt hgp)
              rw [getD_swapL_other l (fun h => hjne_p h.symm) (fun h => hji h.symm)]
              have hj0 : 0 < j := by
                rcases Nat.eq_zero_or_pos j with h | h
                · rw [h] at hpj; unfold parentIdx at hpj hp0; omega
                · exact h
              exact keyLe_trans (hA (parentIdx i) hp hp0 hpi) (hpj ▸ hA j hj hj0 hji)
        · rename_i hnlt
          intro j hj hj0
          by_cases hji : j = i
          · rw [hji]
            exact keyLe_of_not_keyLt hnlt
          · exact hA j hj hj0 hji

/-- Sifting down restores the heap invariant, provided all parent-child
pairs except those below `i` are ordered and the children of `i` dominate
`i`'s parent. -/
theorem siftDownF_KOrd (f : ℕ) :
    ∀ (l : List Entry) (i : ℕ), l.length ≤ f + i →
    (∀ j, j < l.length → 0 < j → parentIdx j ≠ i →
      keyLe (l.getD (parentIdx j) dEntry) (l.getD j dEntry)) →
    (∀ j, j < l.length → parentIdx j = i → 0 < i →
      keyLe (l.getD (parentIdx i) dEntry) (l.getD j dEntry)) →
    KOrd (siftDownF f l i) := by
  induction f with
  | zero =>
      intro l i hf hA _
      show KOrd l
      intro j hj hj0
      exact hA j hj hj0 (by have := parentIdx_lt hj0; omega)
  | succ f ih =>
      intro l i hf hA hB
      unfold siftDownF
      split
      · rename_i hc
        have hmlt : minChild l i < l.length := minChild_lt l i hc
        have hmgt : i < minChild l i := minChild_gt l i
        have hmp : parentIdx (minChild l i) = i := parentIdx_minChild l i
        have hi' : i < l.length := lt_trans hmgt hmlt
        split
        · rename_i hlt
          apply ih (swapL l i (minChild l i)) (minChild l i)
            (by rw [length_swapL]; omega)
          · intro j hj hj0 hjm
            rw [length_swapL] at hj
            by_cases hjmc : j = minChild l i
            · rw [hjmc, hmp, getD_swapL_fst l hi' hmlt, getD_swapL_snd l hmlt]
              exact keyLe_of_keyLt hlt
            · by_cases hji : j = i
              · have hi0 : 0 < i := hji ▸ hj0
                have hpilt : parentIdx i < i := parentIdx_lt hi0
                rw [hji, getD_swapL_other l (by omega) (by omega),
                  getD_swapL_fst l hi' hmlt]
                exact hB (minChild l i) hmlt hmp hi0
              · have hgj : (swapL l i (minChild l i)).getD j dEntry = l.getD j dEntry :=
                  getD_swapL_other l (fun h => hji h.symm) (fun h => hjmc h.symm)
                rw [hgj]
                by_cases hpj : parentIdx j = i
                · rw [hpj, getD_swapL_fst l hi' hmlt]
                  exact minChild_le l i j hj (parentIdx_cases hj0 hpj)
                · rw [getD_swapL_other l (fun h => hpj h.symm) (fun h => hjm h.symm)]
                  exact hA j hj hj0 hpj
          · intro j hj hpj hm0
            rw [length_swapL] at hj
            rw [hmp]
            have hj0 : 0 < j := by
              rcases Nat.eq_zero_or_pos j with h | h
              · rw [h] at hpj; unfold parentIdx at hpj; omega
              · exact h
            have hjgt : minChild l i < j := hpj ▸ parentIdx_lt hj0
            rw [getD_swapL_fst l hi' hmlt,
              getD_swapL_other l (by omega) (by omega)]
            exact hpj ▸ hA j hj hj0 (by rw [hpj]; omega)
        · rename_i hnlt
          intro j hj hj0
          by_cases hpj : parentIdx j = i
          · rw [hpj]
            exact keyLe_trans (keyLe_of_not_keyLt hnlt)
              (minChild_le l i j hj (parentIdx_cases hj0 hpj))
          · exact hA j hj hj0 hpj
      · rename_i hc
        intro j hj hj0
        by_cases hpj : parentIdx j = i
        · rcases parentIdx_cases hj0 hpj with h | h <;> omega
        · exact hA j hj hj0 hpj

/-- In a heap-ordered list the root is a minimum. -/
theorem KOrd_root_min {l : List Entry} (hk : KOrd l) :
    ∀ j, j < l.length → keyLe (l.getD 0 dEntry) (l.getD j dEntry) := by
  intro j
  induction j using Nat.strong_induction_on with
  | _ j ih =>
      intro hj
      rcases Nat.eq_zero_or_pos j with h | h
      · subst h; exact keyLe_refl _
      · exact keyLe_trans
          (ih (parentIdx j) (parentIdx_lt h) (lt_trans (parentIdx_lt h) hj))
          (hk j hj h)

/-- The error taxonomy of the heap core. -/
inductive HeapError
  | invalidCapacity
  | invalidArgument
  | emptyHeapError
deriving DecidableEq, Repr

instance {e a : Type} [DecidableEq e] [DecidableEq a] : DecidableEq (Except e a)
  | .error x, .error y => decidable_of_iff (x = y) (by simp)
  | .error _, .ok _ => isFalse (by simp)
  | .ok _, .error _ => isFalse (by simp)
  | .ok x, .ok y => decidable_of_iff (x = y) (by simp)

/-- Modelled from the spec: the `BoundedTopKHeap` owns a contiguous buffer
of `Entry` of fixed capacity `C` and a size counter (the buffer length
here); `nextSeq` numbers insertions for the FIFO tie-break. -/
structure Heap where
  capacity : ℕ
  data : List Entry
  nextSeq : ℕ
deriving DecidableEq, Repr

/-- A heap with capacity `c` and no entries. -/
def emptyHeap (c : ℕ) : Heap := ⟨c, [], 0⟩

/-- Modelled from the spec: `new(capacity: C)` fails with `InvalidCapacity`
if `C ≤ 0`. -/
def mkHeap (c : ℤ) : Except HeapError Heap :=
  if c ≤ 0 then .error .invalidCapacity else .ok (emptyHeap c.toNat)

/-- Modelled from the spec: `push(score, payload)`: if `size < C`, append
and sift the new entry up; if `size == C`, compare against the root's
score: discard on `score ≤ root.score` (no state change), otherwise
overwrite the root and sift it down. -/
def Heap.push (h : Heap) (s : ℚ) (p : ℤ) : Heap :=
  if h.data.length < h.capacity then
    { h with
      data := siftUpF (h.data.length + 1)
        (h.data ++ [⟨s, p, h.nextSeq⟩]) h.data.length,
      nextSeq := h.nextSeq + 1 }
  else
    match h.data with
    | [] => h
    | r :: _ =>
      if s ≤ r.score then h
      else
        { h with
          data := siftDownF h.data.length (h.data.set 0 ⟨s, p, h.nextSeq⟩) 0,
          nextSeq := h.nextSeq + 1 }

/-- Modelled from the spec: `pop()` removes and returns the current root
(smallest-score retained entry), decrements `size`, and fails with
`EmptyHeapError` if `size == 0`. The hole at the root is filled by the
last buffer slot, which is sifted down. -/
def Heap.pop (h : Heap) : Except HeapError (Entry × Heap) :=
  match hd : h.data with
  | [] => .error .emptyHeapError
  | r :: rest =>
    if rest = [] then .ok (r, { h with data := [] })
    else
      .ok (r, { h with
        data := siftDownF (h.data.length - 1)
          ((h.data.dropLast).set 0 (h.data.getD (h.data.length - 1) dEntry)) 0 })

/-- Modelled from the spec: `pushpop(score, payload)` returns the entry
evicted by the push (the supplied entry itself when it does not qualify,
the old root otherwise) while performing the push. -/
def Heap.pushpop (h : Heap) (s : ℚ) (p : ℤ) : (ℚ × ℤ) × Heap :=
  match h.data with
  | [] => ((s, p), h)
  | r :: _ =>
    if s ≤ r.score then ((s, p), h)
    else
      ((r.score, r.payload),
       { h with
         data := siftDownF h.data.length (h.data.set 0 ⟨s, p, h.nextSeq⟩) 0,
         nextSeq := h.nextSeq + 1 })

/-- The entry evicted by a push on a full heap, read off without touching
the heap: the pushed entry itself when it does not beat the root, the old
root otherwise. -/
def evictedByPush (h : Heap) (s : ℚ) (p : ℤ) : ℚ × ℤ :=
  match h.data with
  | [] => (s, p)
  | r :: _ => if s ≤ r.score then (s, p) else (r.score, r.payload)

/-- Drain the heap by repeated pops (ascending order); `f` is fuel. -/
def drainF : ℕ → Heap → List Entry
  | 0, _ => []
  | f + 1, h =>
    match h.pop with
    | .error _ => []
    | .ok (e, h') => e :: drainF f h'

/-- All retained entries in ascending pop order. -/
def Heap.drain (h : Heap) : List Entry := drainF h.data.length h

/-- Modelled from the spec: `nlargest(h, k)` fails with `InvalidArgument`
on `k < 0` and otherwise returns the `min(k, size)` retained entries with
the highest scores in descending order, by draining a working copy. -/
def Heap.nlargest (h : Heap) (k : ℤ) : Except HeapError (List (ℚ × ℤ)) :=
  if k < 0 then .error .invalidArgument
  else .ok (((h.drain.reverse).take (min k.toNat h.data.length)).map
    (fun e => (e.score, e.payload)))

/-- Modelled from the spec: extraction operates on a working copy, so the
state-passing form of `nlargest` hands back the source heap unchanged. -/
def Heap.nlargestSt (h : Heap) (k : ℤ) :
    Except HeapError (List (ℚ × ℤ)) × Heap :=
  ((⟨h.capacity, h.data, h.nextSeq⟩ : Heap).nlargest k, h)

/-- Push a whole stream of `(score, payload)` records. -/
def pushAll (h : Heap) (xs : List (ℚ × ℤ)) : Heap :=
  xs.foldl (fun a sp => a.push sp.1 sp.2) h

theorem getD_append_lt (l l' : List Entry) (n : ℕ) (h : n < l.length) :
    (l ++ l').getD n dEntry = l.getD n dEntry := by
  simp [List.getD_eq_getElem?_getD, List.getElem?_append_left h]

theorem getD_dropLast (l : List Entry) (n : ℕ) (h : n + 1 < l.length) :
    (l.dropLast).getD n dEntry = l.getD n dEntry := by
  simp only [List.getD_eq_getElem?_getD, List.getElem?_dropLast]
  rw [if_pos (by omega)]

theorem getD_mem (l : List Entry) (i : ℕ) (h : i < l.length) :
    l.getD i dEntry ∈ l := by
  rw [List.getD_eq_getElem?_getD, List.getElem?_eq_getElem h]
  exact List.getElem_mem h

theorem mem_getD (l : List Entry) (f : Entry) (h : f ∈ l) :
    ∃ i, i < l.length ∧ l.getD i dEntry = f := by
  obtain ⟨i, hi, hf⟩ := List.mem_iff_getElem.mp h
  exact ⟨i, hi, by rw [List.getD_eq_getElem?_getD, List.getElem?_eq_getElem hi]; exact hf⟩

/-- `push` preserves the heap-order invariant. -/
theorem push_KOrd (h : Heap) (s : ℚ) (p : ℤ) (hk : KOrd h.data) :
    KOrd (h.push s p).data := by
  unfold Heap.push
  split
  · apply siftUpF_KOrd (h.data.length + 1) _ h.data.length (by omega) (by simp)
    · intro j hj hj0 hji
      have hjlen : j < h.data.length := by simp at hj; omega
      have hpj : parentIdx j < h.data.length := lt_trans (parentIdx_lt hj0) hjlen
      rw [getD_append_lt _ _ _ hjlen, getD_append_lt _ _ _ hpj]
      exact hk j hjlen hj0
    · intro j hj hpj hi0
      exfalso
      rcases Nat.eq_zero_or_pos j with h0 | h0
      · rw [h0] at hpj; unfold parentIdx at hpj; omega
      · have := parentIdx_lt h0; simp at hj; omega
  · split
    · exact hk
    · split
      · exact hk
      · apply siftDownF_KOrd h.data.length _ 0 (by simp)
        · intro j hj hj0 hpj
          have hp0 : 0 < parentIdx j := Nat.pos_of_ne_zero hpj
          simp only [List.length_set] at hj
          rw [getD_set_ne _ _ (by omega), getD_set_ne _ _ (by omega)]
          exact hk j hj hj0
        · intro j hj hpj h0
          exact absurd h0 (lt_irrefl 0)

/-- The entries after a non-full `push` are the old ones plus the new one. -/
theorem push_perm_notFull (h : Heap) (s : ℚ) (p : ℤ)
    (hlt : h.data.length < h.capacity) :
    (h.push s p).data.Perm (⟨s, p, h.nextSeq⟩ :: h.data) := by
  unfold Heap.push
  rw [if_pos hlt]
  exact (siftUpF_perm _ _ _ (by simp)).trans (List.perm_append_singleton _ _)

/-- A rejected `push` on a full heap is a strict no-op. -/
theorem push_full_noop (h : Heap) (s : ℚ) (p : ℤ) (r : Entry) (rest : List Entry)
    (hfull : ¬ h.data.length < h.capacity) (hd : h.data = r :: rest)
    (hs : s ≤ r.score) :
    h.push s p = h := by
  unfold Heap.push
  rw [if_neg hfull]
  split
  · rfl
  · rename_i r' rest' hd'
    rw [hd] at hd'
    cases hd'
    rw [if_pos hs]

/-- A successful `push` on a full heap replaces the root. -/
theorem push_perm_full (h : Heap) (s : ℚ) (p : ℤ) (r : Entry) (rest : List Entry)
    (hfull : ¬ h.data.length < h.capacity) (hd : h.data = r :: rest)
    (hs : ¬ s ≤ r.score) :
    (h.push s p).data.Perm (⟨s, p, h.nextSeq⟩ :: rest) := by
  unfold Heap.push
  rw [if_neg hfull]
  split
  · rename_i hd'
    rw [hd] at hd'; cases hd'
  · rename_i r' rest' hd'
    rw [hd] at hd'
    cases hd'
    rw [if_neg hs]
    simp only
    have : h.data.set 0 ⟨s, p, h.nextSeq⟩ = ⟨s, p, h.nextSeq⟩ :: rest := by
      rw [hd]; rfl
    rw [← this]
    exact (siftDownF_perm _ _ _ (by rw [hd]; simp)).trans (by rw [this])

/-- `push` never grows the heap beyond its capacity. -/
theorem push_length_le (h : Heap) (s : ℚ) (p : ℤ)
    (hle : h.data.length ≤ h.capacity) :
    (h.push s p).data.length ≤ h.capacity := by
  unfold Heap.push
  split
  · rename_i hlt
    rw [length_siftUpF]
    simp
    omega
  · split
    · exact hle
    · split
      · exact hle
      · rw [length_siftDownF]
        simpa using hle

theorem push_capacity (h : Heap) (s : ℚ) (p : ℤ) :
    (h.push s p).capacity = h.capacity := by
  unfold Heap.push
  split
  · rfl
  · split
    · rfl
    · split <;> rfl

/-- A nonempty list is a permutation of its last element consed onto the
rest. -/
theorem perm_last_dropLast (l : List Entry) (hne : l ≠ []) :
    l.Perm (l.getD (l.length - 1) dEntry :: l.dropLast) := by
  have hlast : l.getD (l.length - 1) dEntry = l.getLast hne := by
    rw [List.getLast_eq_getElem, List.getD_eq_getElem?_getD,
      List.getElem?_eq_getElem (by cases l with
        | nil => exact absurd rfl hne
        | cons a t => simp)]
    rfl
  rw [hlast]
  conv_lhs => rw [← List.dropLast_append_getLast hne]
  exact List.perm_append_singleton _ _

/-- `pop` fails exactly on the empty heap. -/
theorem pop_error_iff (h : Heap) :
    h.pop = .error .emptyHeapError ↔ h.data = [] := by
  obtain ⟨cap, data, ns⟩ := h
  unfold Heap.pop
  cases data with
  | nil => simp
  | cons r rest =>
      dsimp only
      split <;> simp

/-- What a successful `pop` does to the data, independent of ordering: it
returns slot 0 and removes one occurrence of it. -/
theorem pop_ok_spec (h : Heap) (e : Entry) (h' : Heap)
    (hpop : h.pop = .ok (e, h')) :
    e = h.data.getD 0 dEntry ∧ h.data.Perm (e :: h'.data) ∧
      h'.data.length = h.data.length - 1 ∧ h'.capacity = h.capacity := by
  obtain ⟨cap, data, ns⟩ := h
  unfold Heap.pop at hpop
  cases data with
  | nil => exact Except.noConfusion hpop
  | cons r rest =>
      dsimp only at hpop ⊢
      by_cases hrest : rest = []
      · rw [if_pos hrest] at hpop
        subst hrest
        cases hpop
        exact ⟨rfl, List.Perm.refl _, rfl, rfl⟩
      · rw [if_neg hrest] at hpop
        cases hpop
        have hld : (((e :: rest).dropLast).set 0
              ((e :: rest).getD ((e :: rest).length - 1) dEntry))
            = (e :: rest).getD ((e :: rest).length - 1) dEntry :: rest.dropLast := by
          cases rest with
          | nil => exact absurd rfl hrest
          | cons b t => rfl
        have hlast : (e :: rest).getD ((e :: rest).length - 1) dEntry
            = rest.getD (rest.length - 1) dEntry := by
          cases rest with
          | nil => exact absurd rfl hrest
          | cons b t => simp
        have hperm : (siftDownF ((e :: rest).length - 1)
            (((e :: rest).dropLast).set 0
              ((e :: rest).getD ((e :: rest).length - 1) dEntry)) 0).Perm rest := by
          refine (siftDownF_perm _ _ _ ?_).trans ?_
          · rw [hld]
            cases rest with
            | nil => exact absurd rfl hrest
            | cons b t => simp
          · rw [hld, hlast]
            exact (perm_last_dropLast rest hrest).symm
        refine ⟨rfl, List.Perm.cons e hperm.symm, ?_, rfl⟩
        simp only [length_siftDownF, List.length_set, List.length_dropLast]

/-- `pop` preserves the heap-order invariant. -/
theorem pop_KOrd (h : Heap) (e : Entry) (h' : Heap) (hk : KOrd h.data)
    (hpop : h.pop = .ok (e, h')) : KOrd h'.data := by
  obtain ⟨cap, data, ns⟩ := h
  unfold Heap.pop at hpop
  cases data with
  | nil => exact Except.noConfusion hpop
  | cons r rest =>
      dsimp only at hpop hk ⊢
      by_cases hrest : rest = []
      · rw [if_pos hrest] at hpop
        cases hpop
        intro j hj
        simp at hj
      · rw [if_neg hrest] at hpop
        cases hpop
        dsimp only
        apply siftDownF_KOrd ((e :: rest).length - 1) _ 0 (by simp)
        · intro j hj hj0 hpj
          have hp0 : 0 < parentIdx j := Nat.pos_of_ne_zero hpj
          simp only [List.length_set, List.length_dropLast, List.length_cons] at hj
          have hpjlt : parentIdx j < j := parentIdx_lt hj0
          rw [getD_set_ne _ _ (by omega), getD_set_ne _ _ (by omega),
            getD_dropLast _ _ (by simp; omega), getD_dropLast _ _ (by simp; omega)]
          exact hk j (by simp; omega) hj0
        · intro j hj hpj h0
          exact absurd h0 (lt_irrefl 0)

/-- Any `pop` error means the heap was empty. -/
theorem pop_error_any (h : Heap) (err : HeapError)
    (hpop : h.pop = .error err) : h.data = [] := by
  obtain ⟨cap, data, ns⟩ := h
  unfold Heap.pop at hpop
  cases data with
  | nil => rfl
  | cons r rest =>
      dsimp only at hpop
      split at hpop <;> exact Except.noConfusion hpop

theorem drainF_perm :
    ∀ (f : ℕ) (h : Heap), h.data.length ≤ f → (drainF f h).Perm h.data := by
  intro f
  induction f with
  | zero =>
      intro h hf
      have : h.data = [] := List.length_eq_zero.mp (Nat.le_zero.mp hf)
      rw [this]
      exact List.Perm.refl _
  | succ f ih =>
      intro h hf
      unfold drainF
      cases hpop : h.pop with
      | error err =>
          rw [pop_error_any h err hpop]
      | ok eh =>
          obtain ⟨e, h'⟩ := eh
          obtain ⟨_, hperm, hlen, _⟩ := pop_ok_spec h e h' hpop
          have hne : h.data ≠ [] := by
            intro hnil
            rw [(pop_error_iff h).mpr hnil] at hpop
            exact Except.noConfusion hpop
          have hpos : 0 < h.data.length := List.length_pos.mpr hne
          exact (List.Perm.cons e (ih h' (by omega))).trans hperm.symm

theorem drainF_sorted :
    ∀ (f : ℕ) (h : Heap), KOrd h.data → h.data.length ≤ f →
      (drainF f h).Pairwise keyLe := by
  intro f
  induction f with
  | zero => intro h _ _; exact List.Pairwise.nil
  | succ f ih =>
      intro h hk hf
      unfold drainF
      cases hpop : h.pop with
      | error err => exact List.Pairwise.nil
      | ok eh =>
          obtain ⟨e, h'⟩ := eh
          obtain ⟨hroot, hperm, hlen, _⟩ := pop_ok_spec h e h' hpop
          refine List.Pairwise.cons ?_ (ih h' (pop_KOrd h e h' hk hpop) (by omega))
          intro x hx
          have hx' : x ∈ h'.data :=
            (drainF_perm f h' (by omega)).mem_iff.mp hx
          have hxh : x ∈ h.data := hperm.mem_iff.mpr (List.mem_cons_of_mem e hx')
          obtain ⟨i, hi, hgd⟩ := mem_getD h.data x hxh
          rw [hroot, ← hgd]
          exact KOrd_root_min hk i hi

/-- Draining visits exactly the retained entries. -/
theorem drain_perm (h : Heap) : h.drain.Perm h.data :=
  drainF_perm h.data.length h (le_refl _)

/-- Draining a heap-ordered heap produces an ascending sequence. -/
theorem drain_sorted (h : Heap) (hk : KOrd h.data) :
    h.drain.Pairwise keyLe :=
  drainF_sorted h.data.length h hk (le_refl _)

/-- On a full heap, `pushpop` is observably push plus reading the evicted
entry. -/
theorem pushpop_eq_push (h : Heap) (s : ℚ) (p : ℤ)
    (hfull : h.data.length = h.capacity) (hpos : 0 < h.capacity) :
    h.pushpop s p = (evictedByPush h s p, h.push s p) := by
  obtain ⟨cap, data, ns⟩ := h
  dsimp only at hfull hpos
  cases data with
  | nil => exact absurd hfull (by simp; omega)
  | cons r rest =>
      have hnlt : ¬ ((r :: rest).length < cap) := by omega
      unfold Heap.pushpop evictedByPush Heap.push
      dsimp only
      rw [if_neg hnlt]
      by_cases hs : s ≤ r.score
      · rw [if_pos hs, if_pos hs, if_pos hs]
      · rw [if_neg hs, if_neg hs, if_neg hs]

theorem pushpop_KOrd (h : Heap) (s : ℚ) (p : ℤ) (hk : KOrd h.data) :
    KOrd (h.pushpop s p).2.data := by
  obtain ⟨cap, data, ns⟩ := h
  unfold Heap.pushpop
  cases data with
  | nil => exact hk
  | cons r rest =>
      dsimp only
      by_cases hs : s ≤ r.score
      · rw [if_pos hs]
        exact hk
      · rw [if_neg hs]
        dsimp only
        apply siftDownF_KOrd ((r :: rest).length) _ 0 (by simp)
        · intro j hj hj0 hpj
          have hp0 : 0 < parentIdx j := Nat.pos_of_ne_zero hpj
          simp only [List.length_set] at hj
          rw [getD_set_ne _ _ (by omega), getD_set_ne _ _ (by omega)]
          exact hk j hj hj0
        · intro j hj hpj h0
          exact absurd h0 (lt_irrefl 0)

theorem pushpop_length (h : Heap) (s : ℚ) (p : ℤ) :
    (h.pushpop s p).2.data.length = h.data.length := by
  obtain ⟨cap, data, ns⟩ := h
  unfold Heap.pushpop
  cases data with
  | nil => rfl
  | cons r rest =>
      dsimp only
      by_cases hs : s ≤ r.score
      · rw [if_pos hs]
      · rw [if_neg hs]
        simp [length_siftDownF]

theorem pushpop_capacity (h : Heap) (s : ℚ) (p : ℤ) :
    (h.pushpop s p).2.capacity = h.capacity := by
  obtain ⟨cap, data, ns⟩ := h
  unfold Heap.pushpop
  cases data with
  | nil => rfl
  | cons r rest =>
      dsimp only
      by_cases hs : s ≤ r.score
      · rw [if_pos hs]
      · rw [if_neg hs]

/-- An abstract operation against the heap, as issued by a client. -/
inductive Op
  | push (s : ℚ) (p : ℤ)
  | pop
  | pushpop (s : ℚ) (p : ℤ)

/-- Apply one operation; a failed `pop` leaves the state as it was. -/
def applyOp (h : Heap) : Op → Heap
  | .push s p => h.push s p
  | .pop =>
      match h.pop with
      | .error _ => h
      | .ok (_, h') => h'
  | .pushpop s p => (h.pushpop s p).2

def applyOps (h : Heap) (ops : List Op) : Heap := ops.foldl applyOp h

/-- The combined well-formedness facts preserved by every operation. -/
theorem applyOp_wf (h : Heap) (op : Op)
    (hk : KOrd h.data) (hle : h.data.length ≤ h.capacity) :
    KOrd (applyOp h op).data ∧ (applyOp h op).data.length ≤ (applyOp h op).capacity ∧
      (applyOp h op).capacity = h.capacity := by
  cases op with
  | push s p =>
      dsimp only [applyOp]
      exact ⟨push_KOrd h s p hk, by rw [push_capacity]; exact push_length_le h s p hle,
        push_capacity h s p⟩
  | pop =>
      dsimp only [applyOp]
      cases hpop : h.pop with
      | error err => exact ⟨hk, hle, rfl⟩
      | ok eh =>
          obtain ⟨e, h'⟩ := eh
          dsimp only
          obtain ⟨_, _, hlen, hcap⟩ := pop_ok_spec h e h' hpop
          exact ⟨pop_KOrd h e h' hk hpop, by omega, hcap⟩
  | pushpop s p =>
      dsimp only [applyOp]
      exact ⟨pushpop_KOrd h s p hk,
        by rw [pushpop_capacity, pushpop_length]; exact hle,
        pushpop_capacity h s p⟩

theorem applyOps_wf (ops : List Op) :
    ∀ (h : Heap), KOrd h.data → h.data.length ≤ h.capacity →
      KOrd (applyOps h ops).data ∧
        (applyOps h ops).data.length ≤ (applyOps h ops).capacity ∧
        (applyOps h ops).capacity = h.capacity := by
  induction ops with
  | nil => intro h hk hle; exact ⟨hk, hle, rfl⟩
  | cons op ops ih =>
      intro h hk hle
      obtain ⟨h1, h2, h3⟩ := applyOp_wf h op hk hle
      obtain ⟨g1, g2, g3⟩ := ih (applyOp h op) h1 h2
      exact ⟨g1, g2, g3.trans h3⟩

/-! ## The offset line resolver -/

/-- Error taxonomy of the resolver. -/
inductive ResolveError
  | seekError
  | decodeError
deriving DecidableEq, Repr

/-- The bytes of the line starting at byte offset `off`: everything from
the offset up to (excluding) the next line terminator or end-of-file. -/
def lineBytesAt (file : List ℕ) (off : ℕ) : List ℕ :=
  (file.drop off).takeWhile (fun b => b != 10)

/-- ASCII decoding: defined exactly on byte sequences below 128. -/
def asciiDecode (bs : List ℕ) : Option String :=
  if bs.all (fun b => decide (b < 128)) then some (String.mk (bs.map Char.ofNat))
  else none

/-- ASCII encoding of a string (meaningful for codepoints below 128). -/
def asciiEncode (s : String) : List ℕ := s.data.map Char.toNat

/-- Modelled from the spec: `string_getter(path, offset)` seeks to
`offset`, reads forward until a line terminator or end-of-file, and
returns the decoded text; it fails with `SeekError` if `offset` exceeds
the file length and with `DecodeError` if the bytes read are not valid
text under the configured (here ASCII) encoding. -/
def string_getter (file : List ℕ) (off : ℕ) : Except ResolveError String :=
  if file.length < off then .error .seekError
  else
    match asciiDecode (lineBytesAt file off) with
    | none => .error .decodeError
    | some s => .ok s

/-- Modelled from the spec: `string_generator(path, offsets)` yields one
resolved line per requested offset, preserving the input order of
`offsets`. -/
def string_generator (file : List ℕ) (offs : List ℕ) :
    List (Except ResolveError String) :=
  offs.map (string_getter file)

theorem takeWhile_append_stop (p : ℕ → Bool) :
    ∀ (a : List ℕ), (∀ x ∈ a, p x = true) → ∀ (c : ℕ) (t : List ℕ), p c = false →
      ((a ++ c :: t).takeWhile p) = a := by
  intro a
  induction a with
  | nil =>
      intro _ c t hc
      simp [List.takeWhile_cons, hc]
  | cons y a ih =>
      intro ha c t hc
      have hy : p y = true := ha y (List.mem_cons_self y a)
      simp only [List.cons_append, List.takeWhile_cons, hy]
      rw [ih (fun x hx => ha x (List.mem_cons_of_mem y hx)) c t hc]
      simp

/-- If the bytes at `off` spell an ASCII line `s` terminated by a newline,
`string_getter` resolves `off` to exactly `s`. -/
theorem string_getter_resolves (file : List ℕ) (off : ℕ) (s : String) (t : List ℕ)
    (hdrop : file.drop off = asciiEncode s ++ 10 :: t)
    (hval : ∀ c ∈ s.data, c.toNat < 128 ∧ c.toNat ≠ 10) :
    string_getter file off = .ok s := by
  have hne : file.drop off ≠ [] := by
    rw [hdrop]
    intro h
    exact absurd (congrArg List.length h) (by simp)
  have hoff : ¬ file.length < off := by
    intro hlt
    exact hne (List.drop_eq_nil_iff.mpr (le_of_lt hlt))
  have hlb : lineBytesAt file off = asciiEncode s := by
    unfold lineBytesAt
    rw [hdrop]
    refine takeWhile_append_stop _ _ ?_ _ _ rfl
    intro x hx
    obtain ⟨c, hc, rfl⟩ := List.mem_map.mp hx
    simpa using (hval c hc).2
  have hdec : asciiDecode (asciiEncode s) = some s := by
    unfold asciiDecode asciiEncode
    rw [if_pos]
    · congr 1
      rw [List.map_map]
      have : s.data.map (Char.ofNat ∘ Char.toNat) = s.data.map id :=
        List.map_congr_left (fun c _ => Char.ofNat_toNat c)
      rw [this, List.map_id]
    · rw [List.all_eq_true]
      intro x hx
      obtain ⟨c, hc, rfl⟩ := List.mem_map.mp hx
      simpa using (hval c hc).1
  unfold string_getter
  rw [if_neg hoff, hlb, hdec]

/-! ## The demo ingestion loop, modelled from `src/test.py` -/

/-- One `readline()`: the bytes up to and including the next newline, or
the whole rest of the file when no newline remains. -/
def readLine (rem : List ℕ) : List ℕ :=
  if (rem.takeWhile (fun b => b != 10)).length < rem.length then
    rem.takeWhile (fun b => b != 10) ++ [10]
  else rem

/-- `line.rstrip(b"\x08\n")`: drop trailing backspace and newline bytes. -/
def stripTrail (l : List ℕ) : List ℕ :=
  (l.reverse.dropWhile (fun b => b == 8 || b == 10)).reverse

/-- `line.rstrip(b"\x08\n").split(b" ", 1)`: when the stripped line has a
space, return the part after the first space (the score field); a line
without a space yields fewer than two parts and is skipped. -/
def splitRecord (line : List ℕ) : Option (List ℕ) :=
  if (stripTrail line).any (fun b => b == 32) then
    some ((stripTrail line).drop
      (((stripTrail line).takeWhile (fun b => b != 32)).length + 1))
  else none

theorem readLine_length_pos (rem : List ℕ) (hne : rem ≠ []) :
    0 < (readLine rem).length := by
  unfold readLine
  split
  · simp
  · exact List.length_pos.mpr hne

theorem readLine_length_le (rem : List ℕ) : (readLine rem).length ≤ rem.length := by
  unfold readLine
  split
  · rename_i h
    simp only [List.length_append, List.length_cons, List.length_nil]
    omega
  · exact le_refl _

/-- The ingestion loop of `src/test.py`: remember `tell()` as `pos`, read a
line, parse it as `payload score`, and push `(score, pos)`; `parse` stands
for `float(parts[1].decode("ascii"))` on the demo's well-formed input. -/
def ingestF (parse : List ℕ → ℚ) : ℕ → Heap → List ℕ → ℕ → Heap
  | 0, h, _, _ => h
  | f + 1, h, rem, pos =>
    match rem with
    | [] => h
    | _ :: _ =>
      ingestF parse f
        (match splitRecord (readLine rem) with
         | some sb => h.push (parse sb) (pos : ℤ)
         | none => h)
        (rem.drop (readLine rem).length) (pos + (readLine rem).length)

def ingest (parse : List ℕ → ℚ) (file : List ℕ) (h : Heap) : Heap :=
  ingestF parse (file.length + 1) h file 0

/-- The `(score, byte-offset)` records the loop pushes, in order. -/
def ingestRecsF (parse : List ℕ → ℚ) : ℕ → List ℕ → ℕ → List (ℚ × ℤ)
  | 0, _, _ => []
  | f + 1, rem, pos =>
    match rem with
    | [] => []
    | _ :: _ =>
      (match splitRecord (readLine rem) with
       | some sb => [(parse sb, (pos : ℤ))]
       | none => []) ++
      ingestRecsF parse f (rem.drop (readLine rem).length) (pos + (readLine rem).length)

def ingestRecs (parse : List ℕ → ℚ) (file : List ℕ) : List (ℚ × ℤ) :=
  ingestRecsF parse (file.length + 1) file 0

theorem ingestF_eq_pushAll (parse : List ℕ → ℚ) :
    ∀ (f : ℕ) (rem : List ℕ) (pos : ℕ) (h : Heap),
      ingestF parse f h rem pos = pushAll h (ingestRecsF parse f rem pos) := by
  intro f
  induction f with
  | zero => intro rem pos h; rfl
  | succ f ih =>
      intro rem pos h
      unfold ingestF ingestRecsF
      cases rem with
      | nil => rfl
      | cons b rest =>
          dsimp only
          cases splitRecord (readLine (b :: rest)) with
          | none => exact ih _ _ _
          | some sb => exact ih _ _ _

theorem ingestRecsF_offsets (parse : List ℕ → ℚ) (file : List ℕ) :
    ∀ (f : ℕ) (pos : ℕ), ∀ sp ∈ ingestRecsF parse f (file.drop pos) pos,
      ∃ o : ℕ, sp.2 = (o : ℤ) ∧ file.drop o ≠ [] ∧
        ∃ sb, splitRecord (readLine (file.drop o)) = some sb ∧
          sp.1 = parse sb := by
  intro f
  induction f with
  | zero => intro pos sp hsp; exact absurd hsp (List.not_mem_nil sp)
  | succ f ih =>
      intro pos sp hsp
      unfold ingestRecsF at hsp
      cases hrem : file.drop pos with
      | nil => rw [hrem] at hsp; exact absurd hsp (List.not_mem_nil sp)
      | cons b rest =>
          rw [hrem] at hsp
          dsimp only at hsp
          rw [List.mem_append] at hsp
          have hdd : (b :: rest).drop (readLine (b :: rest)).length
              = file.drop (pos + (readLine (b :: rest)).length) := by
            rw [← hrem, List.drop_drop]
          cases hsp with
          | inl hhead =>
              cases hsr : splitRecord (readLine (b :: rest)) with
              | none => rw [hsr] at hhead; exact absurd hhead (List.not_mem_nil sp)
              | some sb =>
                  rw [hsr] at hhead
                  rcases List.mem_singleton.mp hhead with rfl
                  refine ⟨pos, rfl, by rw [hrem]; exact List.cons_ne_nil b rest, sb, ?_, rfl⟩
                  rw [hrem]
                  exact hsr
          | inr htail =>
              have := ih (pos + (readLine (b :: rest)).length)
              rw [← hdd] at this
              exact this sp htail

/-! ## Top-K correctness of the push stream (distinct scores) -/

/-- The running invariant of the bounded top-K construction over the
already-pushed prefix `pre`: the heap is ordered, holds `min |pre| C`
entries all drawn from `pre` with pairwise distinct scores, and every
non-retained input score is below every retained score. -/
def InvP (C : ℕ) (pre : List (ℚ × ℤ)) (h : Heap) : Prop :=
  h.capacity = C ∧ KOrd h.data ∧ h.data.length = min pre.length C ∧
  (∀ e ∈ h.data, (e.score, e.payload) ∈ pre) ∧
  (∀ f ∈ pre, (∀ e ∈ h.data, e.score ≠ f.1) → ∀ e ∈ h.data, f.1 < e.score) ∧
  (h.data.map Entry.score).Nodup

/-- When the heap holds as many entries as the prefix, every prefix score
is retained. -/
theorem scores_cover (pre : List (ℚ × ℤ)) (data : List Entry)
    (hmem : ∀ e ∈ data, (e.score, e.payload) ∈ pre)
    (hnods : (data.map Entry.score).Nodup)
    (hpnd : (pre.map Prod.fst).Nodup)
    (hlen : data.length = pre.length) :
    ∀ f ∈ pre, ∃ e ∈ data, e.score = f.1 := by
  have hsub : (data.map Entry.score).toFinset ⊆ (pre.map Prod.fst).toFinset := by
    intro q hq
    rw [List.mem_toFinset] at hq ⊢
    obtain ⟨e, he, rfl⟩ := List.mem_map.mp hq
    exact List.mem_map_of_mem Prod.fst (hmem e he)
  have hcard : (pre.map Prod.fst).toFinset.card ≤ (data.map Entry.score).toFinset.card := by
    rw [List.toFinset_card_of_nodup hnods, List.toFinset_card_of_nodup hpnd]
    simp [hlen]
  have heq := Finset.eq_of_subset_of_card_le hsub hcard
  intro f hf
  have hfin : f.1 ∈ (data.map Entry.score).toFinset := by
    rw [heq, List.mem_toFinset]
    exact List.mem_map_of_mem Prod.fst hf
  rw [List.mem_toFinset] at hfin
  obtain ⟨e, he, hes⟩ := List.mem_map.mp hfin
  exact ⟨e, he, hes⟩

/-- One push preserves the top-K invariant, provided the new score is
fresh. -/
theorem push_inv (C : ℕ) (pre : List (ℚ × ℤ)) (h : Heap) (x : ℚ × ℤ)
    (hinv : InvP C pre h) (hnd : ((pre ++ [x]).map Prod.fst).Nodup) :
    InvP C (pre ++ [x]) (h.push x.1 x.2) := by
  obtain ⟨hcap, hk, hlen, hmem, hbelow, hnods⟩ := hinv
  have hnd' : (pre.map Prod.fst).Nodup ∧ x.1 ∉ pre.map Prod.fst := by
    rw [List.map_append, List.nodup_append] at hnd
    obtain ⟨h1, _, h3⟩ := hnd
    exact ⟨h1, fun hx => h3 hx (by simp)⟩
  obtain ⟨hpnd, hxf⟩ := hnd'
  have hfresh : ∀ e ∈ h.data, e.score ≠ x.1 := by
    intro e he heq
    exact hxf (heq ▸ List.mem_map_of_mem Prod.fst (hmem e he))
  by_cases hlt : h.data.length < h.capacity
  · -- still filling up: the new entry is appended
    have hperm := push_perm_notFull h x.1 x.2 hlt
    have hKO := push_KOrd h x.1 x.2 hk
    have hlenA : h.data.length = pre.length ∧ pre.length < C := by
      rw [hcap] at hlt; omega
    have hmemNew : (⟨x.1, x.2, h.nextSeq⟩ : Entry) ∈ (h.push x.1 x.2).data :=
      hperm.mem_iff.mpr (List.mem_cons_self _ _)
    refine ⟨(push_capacity h x.1 x.2).trans hcap, hKO, ?_, ?_, ?_, ?_⟩
    · rw [hperm.length_eq]; simp; omega
    · intro e he
      rcases List.mem_cons.mp (hperm.mem_iff.mp he) with rfl | hh
      · simp
      · exact List.mem_append_left _ (hmem e hh)
    · intro f hf hnotin
      exfalso
      rcases List.mem_append.mp hf with hfpre | hfx
      · obtain ⟨e, he, hes⟩ := scores_cover pre h.data hmem hnods hpnd hlenA.1 f hfpre
        exact hnotin e (hperm.mem_iff.mpr (List.mem_cons_of_mem _ he)) hes
      · rcases List.mem_singleton.mp hfx with rfl
        exact hnotin _ hmemNew rfl
    · have hmap := hperm.map Entry.score
      rw [hmap.nodup_iff]
      refine List.nodup_cons.mpr ⟨?_, hnods⟩
      intro hxin
      obtain ⟨e, he, hes⟩ := List.mem_map.mp hxin
      exact hfresh e he hes
  · -- full heap
    rcases hdata : h.data with _ | ⟨r, rest⟩
    · -- capacity zero: push is a no-op and the heap stays empty
      have hC0 : C = 0 := by
        rw [hdata] at hlt; rw [hcap] at hlt; simp at hlt; omega
      have hpush : h.push x.1 x.2 = h := by
        unfold Heap.push
        rw [if_neg hlt, hdata]
      rw [hpush]
      refine ⟨hcap, hk, ?_, fun e he => List.mem_append_left _ (hmem e he), ?_, hnods⟩
      · rw [hdata]; simp [hC0]
      · intro f hf hni e he
        rw [hdata] at he
        exact absurd he (List.not_mem_nil e)
    · have hroot0 : h.data.getD 0 dEntry = r := by rw [hdata]; rfl
      have hr_min : ∀ e ∈ h.data, keyLe r e := by
        intro e he
        obtain ⟨i, hi, hgd⟩ := mem_getD h.data e he
        have hmin := KOrd_root_min hk i hi
        rw [hgd, hroot0] at hmin
        exact hmin
      have hrmem : r ∈ h.data := by rw [hdata]; exact List.mem_cons_self r rest
      have hfull : h.data.length = C ∧ C ≤ pre.length := by
        rw [hcap] at hlt; omega
      by_cases hsle : x.1 ≤ r.score
      · -- rejected: nothing changes
        have hxr : x.1 ≠ r.score := fun he => (hfresh r hrmem) he.symm
        have hxlt : x.1 < r.score := lt_of_le_of_ne hsle hxr
        have hpush : h.push x.1 x.2 = h := push_full_noop h x.1 x.2 r rest hlt hdata hsle
        rw [hpush]
        refine ⟨hcap, hk, by simp; omega,
          fun e he => List.mem_append_left _ (hmem e he), ?_, hnods⟩
        intro f hf hnotin
        rcases List.mem_append.mp hf with hfpre | hfx
        · exact hbelow f hfpre hnotin
        · rcases List.mem_singleton.mp hfx with rfl
          intro e he
          exact lt_of_lt_of_le hxlt (keyLe_score (hr_min e he))
      · -- accepted: the old root is evicted
        have hperm := push_perm_full h x.1 x.2 r rest hlt hdata hsle
        have hKO := push_KOrd h x.1 x.2 hk
        have hrest_sub : ∀ e ∈ rest, e ∈ h.data := by
          intro e he; rw [hdata]; exact List.mem_cons_of_mem r he
        have hscores : h.data.map Entry.score = r.score :: rest.map Entry.score := by
          rw [hdata]; rfl
        have hrnotin : r.score ∉ rest.map Entry.score := by
          rw [hscores] at hnods; exact (List.nodup_cons.mp hnods).1
        have hrestnd : (rest.map Entry.score).Nodup := by
          rw [hscores] at hnods; exact (List.nodup_cons.mp hnods).2
        have hxgt : r.score < x.1 := lt_of_not_le hsle
        have hmemNew : (⟨x.1, x.2, h.nextSeq⟩ : Entry) ∈ (h.push x.1 x.2).data :=
          hperm.mem_iff.mpr (List.mem_cons_self _ _)
        refine ⟨(push_capacity h x.1 x.2).trans hcap, hKO, ?_, ?_, ?_, ?_⟩
        · rw [hperm.length_eq]
          have hrl : h.data.length = rest.length + 1 := by rw [hdata]; rfl
          simp
          omega
        · intro e he
          rcases List.mem_cons.mp (hperm.mem_iff.mp he) with rfl | hh
          · simp
          · exact List.mem_append_left _ (hmem e (hrest_sub e hh))
        · intro f hf hnotin
          rcases List.mem_append.mp hf with hfpre | hfx
          · by_cases hfr : f.1 = r.score
            · intro e he
              rcases List.mem_cons.mp (hperm.mem_iff.mp he) with rfl | hh
              · rw [hfr]; exact hxgt
              · rw [hfr]
                have hle' := keyLe_score (hr_min e (hrest_sub e hh))
                have hne' : e.score ≠ r.score := fun hh' =>
                  hrnotin (hh' ▸ List.mem_map_of_mem Entry.score hh)
                exact lt_of_le_of_ne hle' (Ne.symm hne')
            · have hnot_old : ∀ e ∈ h.data, e.score ≠ f.1 := by
                intro e he
                rw [hdata] at he
                rcases List.mem_cons.mp he with rfl | hh
                · exact fun hh' => hfr hh'.symm
                · exact hnotin e (hperm.mem_iff.mpr (List.mem_cons_of_mem _ hh))
              have hb := hbelow f hfpre hnot_old
              intro e he
              rcases List.mem_cons.mp (hperm.mem_iff.mp he) with rfl | hh
              · exact lt_trans (hb r hrmem) hxgt
              · exact hb e (hrest_sub e hh)
          · rcases List.mem_singleton.mp hfx with rfl
            exact absurd rfl (hnotin _ hmemNew)
        · have hmap := hperm.map Entry.score
          rw [hmap.nodup_iff]
          refine List.nodup_cons.mpr ⟨?_, hrestnd⟩
          intro hxin
          obtain ⟨e, he, hes⟩ := List.mem_map.mp hxin
          exact hfresh e (hrest_sub e he) hes

theorem emptyHeap_inv (C : ℕ) : InvP C [] (emptyHeap C) := by
  refine ⟨rfl, ?_, by simp [emptyHeap], ?_, ?_, List.nodup_nil⟩
  · intro i hi; simp [emptyHeap] at hi
  · intro e he; simp [emptyHeap] at he
  · intro f hf; simp at hf

theorem pushAll_inv (C : ℕ) :
    ∀ (xs pre : List (ℚ × ℤ)) (h : Heap), InvP C pre h →
      ((pre ++ xs).map Prod.fst).Nodup → InvP C (pre ++ xs) (pushAll h xs) := by
  intro xs
  induction xs with
  | nil =>
      intro pre h hinv _
      simpa using hinv
  | cons x xs ih =>
      intro pre h hinv hnd
      rw [List.append_cons] at hnd ⊢
      have hnd1 : ((pre ++ [x]).map Prod.fst).Nodup := by
        rw [List.map_append] at hnd
        exact (List.nodup_append.mp hnd).1
      exact ih (pre ++ [x]) (h.push x.1 x.2) (push_inv C pre h x hinv hnd1) hnd

/-- Extracting everything from a heap-ordered heap yields its entries in
strictly descending score order when all scores are distinct. -/
theorem drain_reverse_desc (h : Heap) (hk : KOrd h.data)
    (hnd : (h.data.map Entry.score).Nodup) :
    ((h.drain.reverse).map (fun e => (e.score, e.payload))).Pairwise
      (fun u v => v.1 < u.1) := by
  rw [List.pairwise_map]
  have h1 : h.drain.reverse.Pairwise (fun a b => keyLe b a) :=
    List.pairwise_reverse.mpr (drain_sorted h hk)
  have hnd2 : (h.drain.reverse.map Entry.score).Nodup := by
    rw [List.map_reverse]
    rw [(List.reverse_perm _).nodup_iff]
    exact ((drain_perm h).map Entry.score).nodup_iff.mpr hnd
  have h2 : h.drain.reverse.Pairwise (fun a b => a.score ≠ b.score) := by
    have := hnd2
    rw [List.Nodup, List.pairwise_map] at this
    exact this
  exact (h1.and h2).imp
    (fun hab => lt_of_le_of_ne (keyLe_score hab.1) (Ne.symm hab.2))

theorem nlargest_full (h : Heap) :
    h.nlargest (h.data.length : ℤ)
      = .ok ((h.drain.reverse).map (fun e => (e.score, e.payload))) := by
  unfold Heap.nlargest
  rw [if_neg (by omega)]
  congr 1
  have hlen : h.drain.reverse.length = h.data.length := by
    rw [List.length_reverse]; exact (drain_perm h).length_eq
  rw [Int.toNat_natCast, min_self, List.take_of_length_le (le_of_eq hlen)]

/-! ## Claim theorems -/

/-- Claim C1, as stated, is false on the model: with capacity 2 and the
pushes (5,10), (5,20), (7,30), (5,40), `nlargest(h, min(4,2))` returns
[(7,30),(5,20)].  The claimed FIFO tie-break (the earlier-inserted of two
equal scores is smaller) demands [(7,30),(5,40)] — and even a reading that
prefers the earliest equal-score input would demand [(7,30),(5,10)] —
because the admission test compares scores only, so the retained
equal-score representative is neither the earliest nor the latest. -/
theorem C1_counterexample :
    (pushAll (emptyHeap 2)
        [((5:ℚ),(10:ℤ)), (5,20), (7,30), (5,40)]).nlargest 2
      = .ok [(7,30), (5,20)] ∧
    (pushAll (emptyHeap 2)
        [((5:ℚ),(10:ℤ)), (5,20), (7,30), (5,40)]).nlargest 2
      ≠ .ok [(7,30), (5,40)] ∧
    (pushAll (emptyHeap 2)
        [((5:ℚ),(10:ℤ)), (5,20), (7,30), (5,40)]).nlargest 2
      ≠ .ok [(7,30), (5,10)] := by
  refine ⟨by decide, by decide, by decide⟩

/-- Claim C1 (amended to pushes with pairwise distinct scores): after
pushing `xs` into `Heap(C)`, `nlargest(h, min(n, C))` returns exactly the
`min(n, C)` input pairs with the highest scores, in strictly descending
score order. -/
theorem C1_topK (C : ℕ) (hC : 0 < C) (xs : List (ℚ × ℤ))
    (hnd : (xs.map Prod.fst).Nodup) :
    ∃ r, (pushAll (emptyHeap C) xs).nlargest ((min xs.length C : ℕ) : ℤ) = .ok r ∧
      r.length = min xs.length C ∧
      r.Pairwise (fun u v => v.1 < u.1) ∧
      (∀ u ∈ r, u ∈ xs) ∧
      (∀ f ∈ xs, f ∉ r → ∀ u ∈ r, f.1 < u.1) := by
  have hinv : InvP C xs (pushAll (emptyHeap C) xs) := by
    have := pushAll_inv C xs [] (emptyHeap C) (emptyHeap_inv C) (by simpa using hnd)
    simpa using this
  obtain ⟨hcap, hk, hlen, hmem, hbelow, hnods⟩ := hinv
  set h := pushAll (emptyHeap C) xs with hh
  have hcast : ((min xs.length C : ℕ) : ℤ) = (h.data.length : ℤ) := by
    rw [hlen]
  rw [hcast, nlargest_full h]
  refine ⟨_, rfl, ?_, drain_reverse_desc h hk hnods, ?_, ?_⟩
  · rw [List.length_map, List.length_reverse, (drain_perm h).length_eq, hlen]
  · intro u hu
    obtain ⟨e, he, rfl⟩ := List.mem_map.mp hu
    exact hmem e ((drain_perm h).mem_iff.mp (List.mem_reverse.mp he))
  · intro f hf hfr
    have hnot : ∀ e ∈ h.data, e.score ≠ f.1 := by
      intro e he hes
      apply hfr
      have hepair : (e.score, e.payload) ∈
          (h.drain.reverse).map (fun e => (e.score, e.payload)) :=
        List.mem_map_of_mem _ (List.mem_reverse.mpr ((drain_perm h).mem_iff.mpr he))
      have hxs := hmem e he
      have : (e.score, e.payload) = f :=
        List.inj_on_of_nodup_map hnd hxs hf hes
      rw [← this]
      exact hepair
    have hb := hbelow f hf hnot
    intro u hu
    obtain ⟨e, he, rfl⟩ := List.mem_map.mp hu
    exact hb e ((drain_perm h).mem_iff.mp (List.mem_reverse.mp he))

/-- Witness for C1 at capacity 2 and three distinct-score pushes. -/
theorem C1_witness :
    ∃ r, (pushAll (emptyHeap 2)
        [((1:ℚ),(10:ℤ)), (3,20), (2,30)]).nlargest
          ((min ([((1:ℚ),(10:ℤ)), (3,20), (2,30)].length) 2 : ℕ) : ℤ) = .ok r ∧
      r.length = min ([((1:ℚ),(10:ℤ)), (3,20), (2,30)].length) 2 ∧
      r.Pairwise (fun u v => v.1 < u.1) ∧
      (∀ u ∈ r, u ∈ [((1:ℚ),(10:ℤ)), (3,20), (2,30)]) ∧
      (∀ f ∈ [((1:ℚ),(10:ℤ)), (3,20), (2,30)], f ∉ r → ∀ u ∈ r, f.1 < u.1) :=
  C1_topK 2 (by decide) [((1:ℚ),(10:ℤ)), (3,20), (2,30)] (by decide)

/-- Claim C2: after any operation sequence on `Heap(C)` (including failed
pops and rejected pushes), `size ≤ C`, the min-heap score invariant holds
at every non-root slot, and a push onto a full heap that does not beat the
root leaves the heap entirely unchanged. -/
theorem C2_invariants (C : ℕ) (hC : 0 < C) (ops : List Op) :
    (applyOps (emptyHeap C) ops).data.length ≤ C ∧
    (∀ i, i < (applyOps (emptyHeap C) ops).data.length → 0 < i →
      ((applyOps (emptyHeap C) ops).data.getD (parentIdx i) dEntry).score
        ≤ ((applyOps (emptyHeap C) ops).data.getD i dEntry).score) ∧
    ((applyOps (emptyHeap C) ops).data.length = (applyOps (emptyHeap C) ops).capacity →
      ∀ s p, s ≤ ((applyOps (emptyHeap C) ops).data.getD 0 dEntry).score →
        (applyOps (emptyHeap C) ops).push s p = applyOps (emptyHeap C) ops) := by
  obtain ⟨hk, hle, hcap⟩ := applyOps_wf ops (emptyHeap C)
    (by intro i hi; simp [emptyHeap] at hi) (by simp [emptyHeap])
  have hec : (emptyHeap C).capacity = C := rfl
  refine ⟨by omega, ?_, ?_⟩
  · intro i hi h0
    exact keyLe_score (hk i hi h0)
  · intro hfull s p hs
    rcases hdata : (applyOps (emptyHeap C) ops).data with _ | ⟨r, rest⟩
    · have hlen0 : (applyOps (emptyHeap C) ops).data.length = 0 := by rw [hdata]; rfl
      unfold Heap.push
      rw [if_neg (by omega), hdata]
    · have hr : ((applyOps (emptyHeap C) ops).data.getD 0 dEntry) = r := by
        rw [hdata]; rfl
      exact push_full_noop _ s p r rest (by omega) hdata (hr ▸ hs)

/-- Witness for C2 with capacity 2 and a short operation sequence. -/
theorem C2_witness :
    (applyOps (emptyHeap 2) [Op.push 1 2, Op.pop, Op.push 3 4]).data.length ≤ 2 ∧
    (∀ i, i < (applyOps (emptyHeap 2) [Op.push 1 2, Op.pop, Op.push 3 4]).data.length → 0 < i →
      ((applyOps (emptyHeap 2) [Op.push 1 2, Op.pop, Op.push 3 4]).data.getD (parentIdx i) dEntry).score
        ≤ ((applyOps (emptyHeap 2) [Op.push 1 2, Op.pop, Op.push 3 4]).data.getD i dEntry).score) ∧
    ((applyOps (emptyHeap 2) [Op.push 1 2, Op.pop, Op.push 3 4]).data.length
        = (applyOps (emptyHeap 2) [Op.push 1 2, Op.pop, Op.push 3 4]).capacity →
      ∀ s p, s ≤ ((applyOps (emptyHeap 2) [Op.push 1 2, Op.pop, Op.push 3 4]).data.getD 0 dEntry).score →
        (applyOps (emptyHeap 2) [Op.push 1 2, Op.pop, Op.push 3 4]).push s p
          = applyOps (emptyHeap 2) [Op.push 1 2, Op.pop, Op.push 3 4]) :=
  C2_invariants 2 (by decide) [Op.push 1 2, Op.pop, Op.push 3 4]

/-- Claim C3: `nlargest` is non-destructive — the heap handed back by the
state-passing extraction is the source heap itself (same size, same
contents), and repeating the query returns an identical result. -/
theorem C3_nondestructive (h : Heap) (k : ℤ) :
    (h.nlargestSt k).2 = h ∧
    (h.nlargestSt k).2.data.length = h.data.length ∧
    ((h.nlargestSt k).2.nlargestSt k).1 = (h.nlargestSt k).1 :=
  ⟨rfl, rfl, rfl⟩

/-- Claim C4: on a full heap, `pushpop` returns the entry evicted by the
push (the new entry if it does not beat the root, the old root otherwise)
and leaves the heap exactly as `push` would. -/
theorem C4_pushpop (h : Heap) (s : ℚ) (p : ℤ)
    (hfull : h.data.length = h.capacity) (hpos : 0 < h.capacity) :
    h.pushpop s p = (evictedByPush h s p, h.push s p) :=
  pushpop_eq_push h s p hfull hpos

/-- Witness for C4 on a concrete full heap of capacity 1. -/
theorem C4_witness :
    (pushAll (emptyHeap 1) [((1:ℚ),(5:ℤ))]).pushpop 2 6
      = (evictedByPush (pushAll (emptyHeap 1) [((1:ℚ),(5:ℤ))]) 2 6,
         (pushAll (emptyHeap 1) [((1:ℚ),(5:ℤ))]).push 2 6) :=
  C4_pushpop (pushAll (emptyHeap 1) [((1:ℚ),(5:ℤ))]) 2 6 (by decide) (by decide)

/-- Claim C5: `pop` fails with `EmptyHeapError` exactly when the heap is
empty (in particular on a fresh heap); a successful `pop` removes and
returns the root, which is a smallest-score retained entry, and decrements
the size; repeated pops drain the heap in ascending score order. -/
theorem C5_pop (h : Heap) (hk : KOrd h.data) :
    (h.pop = .error .emptyHeapError ↔ h.data.length = 0) ∧
    (∀ C, (emptyHeap C).pop = .error .emptyHeapError) ∧
    (∀ e h', h.pop = .ok (e, h') →
      e = h.data.getD 0 dEntry ∧ (∀ f ∈ h.data, e.score ≤ f.score) ∧
      h'.data.length = h.data.length - 1 ∧ h.data.Perm (e :: h'.data)) ∧
    h.drain.Pairwise (fun a b => a.score ≤ b.score) := by
  refine ⟨(pop_error_iff h).trans List.length_eq_zero.symm, fun C => rfl, ?_,
    (drain_sorted h hk).imp keyLe_score⟩
  intro e h' hpop
  obtain ⟨hroot, hperm, hlen, _⟩ := pop_ok_spec h e h' hpop
  refine ⟨hroot, ?_, hlen, hperm⟩
  intro f hf
  obtain ⟨i, hi, hgd⟩ := mem_getD h.data f hf
  rw [hroot, ← hgd]
  exact keyLe_score (KOrd_root_min hk i hi)

/-- Witness for C5 on a concrete two-entry heap. -/
theorem C5_witness :
    ((pushAll (emptyHeap 3) [((2:ℚ),(1:ℤ)), (1,2)]).pop = .error .emptyHeapError ↔
      (pushAll (emptyHeap 3) [((2:ℚ),(1:ℤ)), (1,2)]).data.length = 0) ∧
    (∀ C, (emptyHeap C).pop = .error .emptyHeapError) ∧
    (∀ e h', (pushAll (emptyHeap 3) [((2:ℚ),(1:ℤ)), (1,2)]).pop = .ok (e, h') →
      e = (pushAll (emptyHeap 3) [((2:ℚ),(1:ℤ)), (1,2)]).data.getD 0 dEntry ∧
      (∀ f ∈ (pushAll (emptyHeap 3) [((2:ℚ),(1:ℤ)), (1,2)]).data, e.score ≤ f.score) ∧
      h'.data.length = (pushAll (emptyHeap 3) [((2:ℚ),(1:ℤ)), (1,2)]).data.length - 1 ∧
      (pushAll (emptyHeap 3) [((2:ℚ),(1:ℤ)), (1,2)]).data.Perm (e :: h'.data)) ∧
    (pushAll (emptyHeap 3) [((2:ℚ),(1:ℤ)), (1,2)]).drain.Pairwise
      (fun a b => a.score ≤ b.score) :=
  C5_pop (pushAll (emptyHeap 3) [((2:ℚ),(1:ℤ)), (1,2)]) (by decide)

/-- Claim C6: when the line starting at byte offset `o1` reads `alpha` and
the one at `o2` reads `beta`, `string_getter` resolves `o1` to `alpha`,
and `string_generator` on `[o2, o1]` yields `beta` then `alpha`,
preserving the input order of the offsets. -/
theorem C6_roundtrip (file : List ℕ) (o1 o2 : ℕ) (t1 t2 : List ℕ)
    (h1 : file.drop o1 = asciiEncode "alpha" ++ 10 :: t1)
    (h2 : file.drop o2 = asciiEncode "beta" ++ 10 :: t2) :
    string_getter file o1 = .ok "alpha" ∧
    string_generator file [o2, o1] = [.ok "beta", .ok "alpha"] := by
  have ha := string_getter_resolves file o1 "alpha" t1 h1 (by decide)
  have hb := string_getter_resolves file o2 "beta" t2 h2 (by decide)
  refine ⟨ha, ?_⟩
  unfold string_generator
  rw [List.map_cons, List.map_cons, List.map_nil, hb, ha]

/-- Witness for C6 on the concrete file `alpha\nbeta\n`. -/
theorem C6_witness :
    string_getter (asciiEncode "alpha" ++ 10 :: (asciiEncode "beta" ++ [10])) 0
      = .ok "alpha" ∧
    string_generator (asciiEncode "alpha" ++ 10 :: (asciiEncode "beta" ++ [10])) [6, 0]
      = [.ok "beta", .ok "alpha"] :=
  C6_roundtrip (asciiEncode "alpha" ++ 10 :: (asciiEncode "beta" ++ [10])) 0 6
    (asciiEncode "beta" ++ [10]) [] (by decide) (by decide)

/-- Claim C7: `string_getter` fails with `SeekError` exactly when the
offset exceeds the file length; otherwise it fails with `DecodeError`
exactly when the bytes of the addressed line are not valid under the
configured (ASCII) encoding, and otherwise returns the decoded line. -/
theorem C7_getter_errors (file : List ℕ) (off : ℕ) :
    (string_getter file off = .error .seekError ↔ file.length < off) ∧
    (¬ file.length < off →
      (string_getter file off = .error .decodeError ↔
        ¬ (lineBytesAt file off).all (fun b => decide (b < 128)) = true)) ∧
    (¬ file.length < off →
      (lineBytesAt file off).all (fun b => decide (b < 128)) = true →
      string_getter file off = .ok (String.mk ((lineBytesAt file off).map Char.ofNat))) := by
  by_cases hoff : file.length < off
  · have hg : string_getter file off = .error .seekError := by
      unfold string_getter
      rw [if_pos hoff]
    exact ⟨⟨fun _ => hoff, fun _ => hg⟩,
      fun hc => absurd hoff hc, fun hc => absurd hoff hc⟩
  · by_cases hall : (lineBytesAt file off).all (fun b => decide (b < 128)) = true
    · have hg : string_getter file off
          = .ok (String.mk ((lineBytesAt file off).map Char.ofNat)) := by
        unfold string_getter asciiDecode
        rw [if_neg hoff, if_pos hall]
      refine ⟨⟨fun h => absurd (hg ▸ h) (by simp), fun h => absurd h hoff⟩, ?_, fun _ _ => hg⟩
      intro _
      exact ⟨fun h => absurd (hg ▸ h) (by simp), fun h => absurd hall h⟩
    · have hg : string_getter file off = .error .decodeError := by
        unfold string_getter asciiDecode
        rw [if_neg hoff, if_neg hall]
      refine ⟨⟨fun h => absurd (hg ▸ h) (by simp), fun h => absurd h hoff⟩, ?_, ?_⟩
      · intro _
        exact ⟨fun _ => hall, fun _ => hg⟩
      · intro _ hc
        exact absurd hc hall

/-- Witness for C7: a one-byte file, probed at a bad offset, at a
non-ASCII line, and at a good line. -/
theorem C7_witness :
    (string_getter [200] 2 = .error .seekError ↔ ([200] : List ℕ).length < 2) ∧
    (¬ ([200] : List ℕ).length < 0 →
      (string_getter [200] 0 = .error .decodeError ↔
        ¬ (lineBytesAt [200] 0).all (fun b => decide (b < 128)) = true)) :=
  ⟨(C7_getter_errors [200] 2).1, (C7_getter_errors [200] 0).2.1⟩

/-- Claim C8: construction fails with `InvalidCapacity` exactly on
capacity ≤ 0; `nlargest` fails with `InvalidArgument` exactly on `k < 0`;
and `k ≥ size` returns all retained entries. -/
theorem C8_boundaries :
    (∀ c : ℤ, mkHeap c = .error .invalidCapacity ↔ c ≤ 0) ∧
    (∀ (h : Heap) (k : ℤ), h.nlargest k = .error .invalidArgument ↔ k < 0) ∧
    (∀ (h : Heap) (k : ℤ), (h.data.length : ℤ) ≤ k →
      ∃ r, h.nlargest k = .ok r ∧
        r.Perm (h.data.map (fun e => (e.score, e.payload)))) := by
  refine ⟨?_, ?_, ?_⟩
  · intro c
    unfold mkHeap
    by_cases hc : c ≤ 0
    · rw [if_pos hc]; exact ⟨fun _ => hc, fun _ => rfl⟩
    · rw [if_neg hc]; exact ⟨fun h => absurd h (by simp), fun h => absurd h hc⟩
  · intro h k
    unfold Heap.nlargest
    by_cases hk : k < 0
    · rw [if_pos hk]; exact ⟨fun _ => hk, fun _ => rfl⟩
    · rw [if_neg hk]; exact ⟨fun h => absurd h (by simp), fun h => absurd h hk⟩
  · intro h k hk
    unfold Heap.nlargest
    rw [if_neg (by omega)]
    refine ⟨_, rfl, ?_⟩
    have hlen : h.drain.reverse.length = h.data.length := by
      rw [List.length_reverse]; exact (drain_perm h).length_eq
    have hmin : min k.toNat h.data.length = h.data.length := by omega
    rw [hmin, List.take_of_length_le (le_of_eq hlen)]
    exact ((List.reverse_perm _).map _).trans ((drain_perm h).map _)

/-- Witness for C8: capacity 0 is rejected, k = -1 is rejected, and k
beyond the size returns everything. -/
theorem C8_witness :
    (mkHeap 0 = .error .invalidCapacity ↔ (0:ℤ) ≤ 0) ∧
    ((emptyHeap 2).nlargest (-1) = .error .invalidArgument ↔ (-1:ℤ) < 0) ∧
    (∃ r, (pushAll (emptyHeap 2) [((1:ℚ),(7:ℤ))]).nlargest 5 = .ok r ∧
      r.Perm ((pushAll (emptyHeap 2) [((1:ℚ),(7:ℤ))]).data.map
        (fun e => (e.score, e.payload)))) :=
  ⟨C8_boundaries.1 0, C8_boundaries.2.1 (emptyHeap 2) (-1),
    C8_boundaries.2.2 (pushAll (emptyHeap 2) [((1:ℚ),(7:ℤ))]) 5 (by decide)⟩

/-- Claim C9: the concrete scenario — capacity 3, pushes (0.1,10),
(0.9,20), (0.5,30), (0.3,40), (0.7,50) — retains the scores
0.9, 0.7, 0.5 and `nlargest(h, 3)` returns
[(0.9,20), (0.7,50), (0.5,30)]. -/
theorem C9_scenario :
    ((pushAll (emptyHeap 3)
        [((0.1:ℚ),(10:ℤ)), (0.9,20), (0.5,30), (0.3,40), (0.7,50)]).data.map
      Entry.score).Perm [0.9, 0.7, 0.5] ∧
    (pushAll (emptyHeap 3)
        [((0.1:ℚ),(10:ℤ)), (0.9,20), (0.5,30), (0.3,40), (0.7,50)]).nlargest 3
      = .ok [(0.9,20), (0.7,50), (0.5,30)] := by
  have e1 : (0.1 : ℚ) = mkRat 1 10 := by norm_num
  have e2 : (0.9 : ℚ) = mkRat 9 10 := by norm_num
  have e3 : (0.5 : ℚ) = mkRat 5 10 := by norm_num
  have e4 : (0.3 : ℚ) = mkRat 3 10 := by norm_num
  have e5 : (0.7 : ℚ) = mkRat 7 10 := by norm_num
  rw [e1, e2, e3, e4, e5]
  constructor
  · have hd : ((pushAll (emptyHeap 3)
        [((mkRat 1 10 : ℚ),(10:ℤ)), (mkRat 9 10,20), (mkRat 5 10,30),
          (mkRat 3 10,40), (mkRat 7 10,50)]).data.map Entry.score)
        = [mkRat 5 10, mkRat 9 10, mkRat 7 10] := by decide
    rw [hd]
    exact ((List.Perm.swap _ _ _).trans
      (List.Perm.cons _ (List.Perm.swap _ _ _))).symm.symm
  · decide

/-- Claim C10: in the demo ingestion loop every pushed payload is the
`tell()` position taken immediately before reading that record's line —
the byte offset of the line's first byte — so reading the file at that
offset reproduces exactly the line (and hence the score) that was pushed,
and the loop's effect on the heap is exactly those pushes. -/
theorem C10_offsets (parse : List ℕ → ℚ) (file : List ℕ) (h : Heap) :
    ingest parse file h = pushAll h (ingestRecs parse file) ∧
    ∀ sp ∈ ingestRecs parse file, ∃ o : ℕ, sp.2 = (o : ℤ) ∧ file.drop o ≠ [] ∧
      ∃ sb, splitRecord (readLine (file.drop o)) = some sb ∧ sp.1 = parse sb := by
  constructor
  · exact ingestF_eq_pushAll parse (file.length + 1) file 0 h
  · intro sp hsp
    have hall := ingestRecsF_offsets parse file (file.length + 1) 0
    simp only [List.drop_zero] at hall
    exact hall sp hsp

/-- Witness for C10 on the one-record file `a 1\n`. -/
theorem C10_witness :
    (ingest (fun _ => (3 : ℚ)) [97, 32, 49, 10] (emptyHeap 5)
      = pushAll (emptyHeap 5) (ingestRecs (fun _ => (3 : ℚ)) [97, 32, 49, 10])) ∧
    (∃ o : ℕ, (((3:ℚ), (0:ℤ)) : ℚ × ℤ).2 = (o : ℤ) ∧
      ([97, 32, 49, 10] : List ℕ).drop o ≠ [] ∧
      ∃ sb, splitRecord (readLine (([97, 32, 49, 10] : List ℕ).drop o)) = some sb ∧
        (((3:ℚ), (0:ℤ)) : ℚ × ℤ).1 = (fun _ => (3 : ℚ)) sb) :=
  ⟨(C10_offsets (fun _ => (3 : ℚ)) [97, 32, 49, 10] (emptyHeap 5)).1,
   (C10_offsets (fun _ => (3 : ℚ)) [97, 32, 49, 10] (emptyHeap 5)).2
     ((3:ℚ), (0:ℤ)) (by decide)⟩

end Heapcy
